import Mathlib

/-!
Verification of the `smallsh` command interpreter (src/smallsh.c) against its
natural-language specification.  The C program is shallowly embedded: strings
become `List Char` (the characters strictly before the terminating NUL),
fallible scans that in C would read past a buffer return `Option` results with
`none` marking the undefined access, and process-wide globals
(`last_status`, `last_bg_pid`, the environment) become an explicit
`ShellState` record threaded through the pure functions.
-/

/-- C `isspace` on the ASCII characters that can occur in a `char` buffer:
space, tab, newline, vertical tab, form feed, carriage return. -/
def isspaceC (c : Char) : Bool :=
  c.toNat = 32 || c.toNat = 9 || c.toNat = 10 || c.toNat = 11 ||
  c.toNat = 12 || c.toNat = 13

/-- C `isdigit`: the character codes of `'0'`..`'9'`. -/
def isdigitC (c : Char) : Bool :=
  48 ≤ c.toNat && c.toNat ≤ 57

/-- Negation of `isspaceC`, the class of characters that extend a word. -/
def nonsp (c : Char) : Bool := !(isspaceC c)

/-- The whitespace-skipping loops of `wordsplit`
(`for (;*c && isspace(*c); ++c);`). -/
def skipSp : List Char → List Char
  | [] => []
  | c :: cs => if isspaceC c then skipSp cs else c :: cs

/-- The inner word-reading loop of `wordsplit`
(`for (;*c && !isspace(*c); ++c) { if (*c == '\\') ++c; ... }`).
Returns the collected word and the unread remainder of the line.
When a backslash is the line's final character the C loop steps over the
terminating NUL (it appends the NUL to the word, advances `c` past it, and
then dereferences the byte after the buffer's terminator); that undefined
access is modelled as `none`. -/
def readWord : List Char → Option (List Char × List Char)
  | [] => some ([], [])
  | c :: cs =>
    if isspaceC c then some ([], c :: cs)
    else if c = '\\' then
      match cs with
      | [] => none
      | d :: cs' => (readWord cs').map (fun p => (d :: p.1, p.2))
    else (readWord cs).map (fun p => (c :: p.1, p.2))

/-- The outer loop of `wordsplit`: before each word it checks the word-count
cap (`wind == MAX_WORDS`) and then the comment character (`*c == '#'`),
reads one word, and skips the following whitespace.  The first argument is
fuel; every caller supplies more fuel than the line is long, which is
sufficient because each iteration consumes at least one character. -/
def wsLoop : Nat → Nat → Nat → List Char → Option (List (List Char))
  | 0, _, _, _ => none
  | _ + 1, _, _, [] => some []
  | fuel + 1, maxW, wind, c :: cs =>
    if wind = maxW then some []
    else if c = '#' then some []
    else
      match readWord (c :: cs) with
      | none => none
      | some (w, rest) =>
        match wsLoop fuel maxW (wind + 1) (skipSp rest) with
        | none => none
        | some ws => some (w :: ws)

/-- `wordsplit(line)` from src/smallsh.c, parameterised by the word cap
(`MAX_WORDS`, 1024 unless overridden at build time).  Returns the list of
words (the C function returns their count and fills the global `words`
array); `none` marks the out-of-bounds scan triggered by a line whose final
character is a backslash. -/
def wordsplit (maxW : Nat) (line : List Char) : Option (List (List Char)) :=
  wsLoop (line.length + 1) maxW 0 (skipSp line)

/-- Spec-side definition, from the specification's words: the maximal runs of
non-whitespace characters of a line, in order (fuel-driven; `maxRuns`
supplies sufficient fuel). -/
def specRuns : Nat → List Char → List (List Char)
  | 0, _ => []
  | _ + 1, [] => []
  | fuel + 1, c :: cs =>
    if isspaceC c then specRuns fuel cs
    else (c :: cs.takeWhile nonsp) :: specRuns fuel (cs.dropWhile nonsp)

/-- Spec-side: all maximal whitespace-delimited runs of a line. -/
def maxRuns (l : List Char) : List (List Char) := specRuns (l.length + 1) l

/-- Spec-side: cut the word list at the first word beginning with `#`
(that word and everything after it are discarded). -/
def hashCut : List (List Char) → List (List Char)
  | [] => []
  | w :: ws => if w.head? = some '#' then [] else w :: hashCut ws

/-- Spec-side description of the tokenizer: maximal non-whitespace runs, cut
at the first `#`-initial word, truncated at the word cap. -/
def specSplit (maxW : Nat) (l : List Char) : List (List Char) :=
  (hashCut (maxRuns l)).take maxW

/-- The digit character for `d < 10` (the `%d` digits of `snprintf`). -/
def digChar (d : Nat) : Char :=
  if d = 0 then '0' else if d = 1 then '1' else if d = 2 then '2'
  else if d = 3 then '3' else if d = 4 then '4' else if d = 5 then '5'
  else if d = 6 then '6' else if d = 7 then '7' else if d = 8 then '8'
  else '9'

/-- Most-significant-first decimal digits of `n` (empty for `n = 0`),
fuel-driven; `decDigits` supplies sufficient fuel. -/
def decDigitsAux : Nat → Nat → List Char
  | 0, _ => []
  | fuel + 1, n =>
    if n = 0 then [] else decDigitsAux fuel (n / 10) ++ [digChar (n % 10)]

/-- Decimal digit string of a positive natural; empty for `0`. -/
def decDigits (n : Nat) : List Char := decDigitsAux (n + 1) n

/-- Loop body of `n_digits_counter` (`while (n > 0) { n /= 10; i++ }` with
`i` starting at 1), fuel-driven. -/
def ndcAux : Nat → Nat → Nat
  | 0, _ => 1
  | fuel + 1, n => if 0 < n then 1 + ndcAux fuel (n / 10) else 1

/-- `n_digits_counter(n)` from src/smallsh.c: one more than the number of
decimal digits for positive `n`, and `1` for `n ≤ 0`. -/
def n_digits_counter (v : Int) : Nat := ndcAux (v.toNat + 1) v.toNat

/-- The full (untruncated) `%d` rendering of an int. -/
def fullDec (v : Int) : List Char :=
  if v < 0 then '-' :: decDigits (-v).toNat
  else if v = 0 then ['0'] else decDigits v.toNat

/-- Models `char buf[n_digits_counter(v)]; snprintf(buf, sizeof buf, "%d", v)`
as used by `expand`: `snprintf` keeps at most `n - 1` characters, so a
positive value renders fully while `0` (buffer size 1) renders as the empty
string. -/
def fmtSnprintf (v : Int) : List Char :=
  (fullDec v).take (n_digits_counter v - 1)

/-- The process-wide state read by `expand` and the built-ins: the shell's
own pid (`getpid`), the globals `last_status` and `last_bg_pid`, and the
process environment (`getenv`). -/
structure ShellState where
  pid : Int
  last_status : Int
  last_bg_pid : Int
  env : List Char → Option (List Char)

/-- The parameter kinds recognised by `param_scan`: `$$`, `$!`, `$?`, and
`${NAME}` (carrying the name found between the braces). -/
inductive PTok where
  | dollar
  | bang
  | quest
  | brace (name : List Char)
deriving DecidableEq

/-- `strchr(s, '\x7d')` as used by `param_scan`: split at the first closing
brace, returning the characters before it and the remainder after it. -/
def findBrace : List Char → Option (List Char × List Char)
  | [] => none
  | c :: r =>
    if c = '\x7d' then some ([], r)
    else (findBrace r).map (fun p => (c :: p.1, p.2))

/-- Extend the literal prefix of a scan result by one character. -/
def skipMap (c : Char) :
    Option (List Char × PTok × List Char) →
    Option (List Char × PTok × List Char)
  | none => none
  | some (p, t, s) => some (c :: p, t, s)

/-- `param_scan(word, &start, &end)` from src/smallsh.c: find the first
parameter token of a word.  Returns the literal prefix before the token, the
token, and the remainder after it (`none` when the word holds no token).
A `$` whose follower is not `$`, `!`, `?`, or a `{` with a matching `}`
does not match, and scanning resumes at the character after that `$`. -/
def param_scan : List Char → Option (List Char × PTok × List Char)
  | [] => none
  | [_] => none
  | c :: d :: r =>
    if c = '$' then
      if d = '$' then some ([], PTok.dollar, r)
      else if d = '!' then some ([], PTok.bang, r)
      else if d = '?' then some ([], PTok.quest, r)
      else if d = '\x7b' then
        match findBrace r with
        | some (nm, after) => some ([], PTok.brace nm, after)
        | none => skipMap c (param_scan (d :: r))
      else skipMap c (param_scan (d :: r))
    else skipMap c (param_scan (d :: r))

/-- The replacement text `expand` builds for one parameter token.
`$$`, `$!`, `$?` format an int through the `n_digits_counter`-sized
`snprintf` buffer (`$?` special-cases status 0 to `"0"`).  `${NAME}` copies
the name into `char param_arg[64]` with `strncpy`: a name of 64 bytes or
more overflows that buffer (undefined behaviour), modelled as `none`; a
shorter name is looked up with `getenv`, unset names yielding the empty
string. -/
def paramSub (st : ShellState) : PTok → Option (List Char)
  | PTok.dollar => some (fmtSnprintf st.pid)
  | PTok.bang => some (fmtSnprintf st.last_bg_pid)
  | PTok.quest =>
    some (if st.last_status = 0 then ['0'] else fmtSnprintf st.last_status)
  | PTok.brace nm =>
    if 64 ≤ nm.length then none else some ((st.env nm).getD [])

/-- The scan-substitute loop of `expand`, fuel-driven (each found token
consumes at least two characters, so `expand`'s fuel suffices). -/
def expandF : Nat → ShellState → List Char → Option (List Char)
  | 0, _, _ => none
  | fuel + 1, st, w =>
    match param_scan w with
    | none => some w
    | some (pre, tk, rest) =>
      match paramSub st tk with
      | none => none
      | some sub =>
        match expandF fuel st rest with
        | none => none
        | some tail => some (pre ++ sub ++ tail)

/-- `expand(word)` from src/smallsh.c: replace every `$$`, `$!`, `$?`, and
`${NAME}` occurrence left to right, copying literal text unchanged. -/
def expand (st : ShellState) (w : List Char) : Option (List Char) :=
  expandF (w.length + 1) st w

/-- The per-line state built by the command-parsing loop of `main`
(src/smallsh.c lines 230-271): the argv tokens collected so far, the
background flag, the three redirection targets, the output files already
created/truncated during parsing (`open_write` is called, and the stream
closed again, the moment a `>` operator is consumed), and a flag recording
that the loop read a word slot past the end of the word sequence (the
`words[i + 1]` access performed when a redirection operator is the last
word). -/
structure PState where
  tokens : List (List Char) := []
  bg : Bool := false
  writeT : Option (List Char) := none
  readT : Option (List Char) := none
  appendT : Option (List Char) := none
  truncEffects : List (List Char) := []
  oob : Bool := false

/-- The parsing loop of `main`: a trailing `&` sets the background flag;
`>`, `<`, `>>` consume the following word as redirection target (for `>`
the target is opened for writing, creating/truncating it, immediately);
every other word is appended to argv.  A redirection operator with no
following word makes the C code read `words[i + 1]` beyond the word
sequence: the model sets `oob` and stops, since everything after that
stale read is undefined. -/
def parseLoop (st : PState) : List (List Char) → PState
  | [] => st
  | [w] =>
    if w = ['&'] then { st with bg := true }
    else if w = ['>'] ∨ w = ['<'] ∨ w = ['>', '>'] then { st with oob := true }
    else { st with tokens := st.tokens ++ [w] }
  | w :: t :: rest =>
    if w = ['>'] then
      parseLoop
        { st with writeT := some t, truncEffects := st.truncEffects ++ [t] }
        rest
    else if w = ['<'] then parseLoop { st with readT := some t } rest
    else if w = ['>', '>'] then parseLoop { st with appendT := some t } rest
    else parseLoop { st with tokens := st.tokens ++ [w] } (t :: rest)

/-- Parse one expanded word sequence, starting from the all-defaults state
(flags reset before each line). -/
def parseWords (ws : List (List Char)) : PState := parseLoop {} ws

/-- Value of the longest digit prefix, C `atoi`'s accumulation loop. -/
def digitsValAcc : Int → List Char → Int
  | acc, [] => acc
  | acc, c :: r =>
    if isdigitC c then digitsValAcc (10 * acc + ((c.toNat : Int) - 48)) r
    else acc

/-- `INT_MAX` of the target's 32-bit `int`. -/
def INT_MAX : Int := 2147483647

/-- `INT_MIN` of the target's 32-bit `int`. -/
def INT_MIN : Int := -2147483648

/-- Sign handling of C `atoi` after whitespace skipping.  The digit prefix
is accumulated exactly; when the signed value is not representable in the
32-bit `int` that `atoi` returns, the C standard leaves the behaviour
undefined, modelled as `none` (glibc, going through `strtol`, does not
return the mathematical value either). -/
def atoiGo : List Char → Option Int
  | [] => some 0
  | c :: r =>
    if c = '-' then
      if INT_MIN ≤ -(digitsValAcc 0 r) then some (-(digitsValAcc 0 r))
      else none
    else if c = '+' then
      if digitsValAcc 0 r ≤ INT_MAX then some (digitsValAcc 0 r) else none
    else
      if digitsValAcc 0 (c :: r) ≤ INT_MAX then some (digitsValAcc 0 (c :: r))
      else none

/-- C `atoi`: skip leading whitespace, read an optional sign, then the
longest digit prefix (0 if there are no digits); `none` marks a value
outside the `int` range, for which `atoi` is undefined. -/
def atoi (s : List Char) : Option Int :=
  atoiGo (s.dropWhile isspaceC)

/-- Spec-side: the decimal value of an (all-digit) string read as an
integer. -/
def decValue (s : List Char) : Int :=
  s.foldl (fun n c => 10 * n + ((c.toNat : Int) - 48)) 0

/-- `expand` result with the (unreachable for these words) undefined case
defaulted, as a plain string; used where the C code feeds `expand(...)`
straight into another call. -/
def expandOr (st : ShellState) (w : List Char) : List Char :=
  (expand st w).getD []

/-- Outcome of the `exit` built-in: terminate the process with a code, or
report an error and continue the read loop. -/
inductive ExitAction where
  | terminate (code : Int)
  | errContinue
deriving DecidableEq

/-- The `exit` built-in (src/smallsh.c lines 313-331), given argv (with
`"exit"` at position 0; `n_tokens - 1` in the C code is the argv length).
Three or more argv entries: `E2BIG`, loop continues.  Exactly two: if the
first character of the argument is a digit, terminate with `atoi` of the
argument, else `EINVAL` and the loop continues.  Otherwise terminate with
`atoi(expand("$?"))`.  A termination path whose `atoi` call overflows
`int` is undefined (`none`). -/
def exitBuiltin (st : ShellState) (tokens : List (List Char)) :
    Option ExitAction :=
  if 3 ≤ tokens.length then some ExitAction.errContinue
  else if tokens.length = 2 then
    let a := tokens.getD 1 []
    if isdigitC (a.headD (Char.ofNat 0)) then
      (atoi a).map ExitAction.terminate
    else some ExitAction.errContinue
  else (atoi (expandOr st ['$', '?'])).map ExitAction.terminate

/-- Abstract filesystem used by the `cd` built-in: whether
`access(path, F_OK)` succeeds and whether `chdir(path)` succeeds. -/
structure FSModel where
  accessOk : List Char → Bool
  chdirOk : List Char → Bool

/-- The word `${HOME}` as a character list. -/
def homeWord : List Char := ['$', '\x7b', 'H', 'O', 'M', 'E', '\x7d']

/-- `expand("${HOME}")` as used by `cd` with no argument. -/
def homeVal (st : ShellState) : List Char := expandOr st homeWord

/-- The `cd` built-in (src/smallsh.c lines 337-378), given argv (with
`"cd"` at position 0).  Returns the resulting working directory and whether
an error was reported.  Three or more argv entries: `E2BIG`.  Exactly two:
`access(arg, F_OK)` then `chdir(arg)`, each failure reported with the
directory unchanged.  Otherwise `chdir(expand("${HOME}"))`. -/
def cdBuiltin (st : ShellState) (fs : FSModel) (cwd : List Char)
    (tokens : List (List Char)) : List Char × Bool :=
  if 3 ≤ tokens.length then (cwd, true)
  else if tokens.length = 2 then
    let p := tokens.getD 1 []
    if fs.accessOk p then
      if fs.chdirOk p then (p, false) else (cwd, true)
    else (cwd, true)
  else if fs.chdirOk (homeVal st) then (homeVal st, false) else (cwd, true)

/-- Status of a waited-on child as decoded by the `WIF*` macros:
`exited code` for `WIFEXITED` with `WEXITSTATUS code`, `signaled sig` for
`WIFSIGNALED` with `WTERMSIG sig`, `stopped raw` for `WIFSTOPPED` with the
raw status word. -/
inductive WaitRes where
  | exited (code : Nat)
  | signaled (sig : Nat)
  | stopped (raw : Int)

/-- The status bookkeeping the parent performs after `waitpid` on a
foreground child (src/smallsh.c lines 444-461): a signal death records
`128 + signal`, a stop records the child as the new background pid and the
raw status, a normal exit records the exit code. -/
def applyWait (fork_pid : Int) (st : ShellState) : WaitRes → ShellState
  | WaitRes.exited c => { st with last_status := (c : Int) }
  | WaitRes.signaled s => { st with last_status := 128 + (s : Int) }
  | WaitRes.stopped raw =>
    { st with last_bg_pid := fork_pid, last_status := raw }

/-- Spec-side: the decimal string of a recorded (non-negative) status, with
status 0 rendered as `"0"`. -/
def statusStr (n : Nat) : List Char :=
  if n = 0 then ['0'] else decDigits n

/-- Spec-side decidable rendering of "the word contains no `$`-parameter
token": every `$` is either last, or followed by a character other than
`$`, `!`, `?`, `{`, or starts an unterminated `${` (no closing brace
anywhere after it). -/
def noParamTokensB : List Char → Bool
  | [] => true
  | [_] => true
  | c :: d :: r =>
    if c = '$' then
      if d = '$' ∨ d = '!' ∨ d = '?' then false
      else if d = '\x7b' then
        (r.all fun x => !(x = '\x7d' : Bool)) && noParamTokensB (d :: r)
      else noParamTokensB (d :: r)
    else noParamTokensB (d :: r)


/-! ## Concrete states for closed instances -/

/-- A shell state with empty environment, status 0, no background pid. -/
def stA : ShellState := ⟨42, 0, 0, fun _ => none⟩

/-- A shell state with status 7, background pid 57, and `HI=v1`. -/
def stB : ShellState :=
  ⟨42, 7, 57, fun nm => if nm = ['H', 'I'] then some ['v', '1'] else none⟩

/-- A shell state whose environment sets `HOME=/h`. -/
def stH : ShellState :=
  ⟨42, 0, 0, fun nm => if nm = ['H', 'O', 'M', 'E'] then some ['/', 'h']
    else none⟩

/-- A parameter name of 64 characters. -/
def nm64 : List Char := List.replicate 64 'A'

/-- A shell state binding the 64-character name `nm64` in the environment. -/
def stC : ShellState :=
  ⟨42, 0, 0, fun nm => if nm = nm64 then some ['v'] else none⟩

/-- The word `exit`. -/
def exitW : List Char := ['e', 'x', 'i', 't']

/-- The word `cd`. -/
def cdW : List Char := ['c', 'd']

/-- A filesystem in which only `/x` passes `access` and only `/h` (the
`HOME` of `stH`) can be entered with `chdir`. -/
def fsW : FSModel := ⟨fun p => p == ['/', 'x'], fun p => p == ['/', 'h']⟩

/-! ## Expansion lemmas -/

theorem expand_no_param (st : ShellState) {w : List Char}
    (h : param_scan w = none) : expand st w = some w := by
  simp only [expand, expandF, h]

theorem findBrace_none {r : List Char} (h : ∀ x ∈ r, x ≠ '\x7d') :
    findBrace r = none := by
  induction r with
  | nil => rfl
  | cons c r ih =>
    have hc : c ≠ '\x7d' := h c (List.mem_cons_self c r)
    simp only [findBrace, if_neg hc]
    rw [ih fun x hx => h x (List.mem_cons_of_mem c hx)]
    rfl

theorem findBrace_append {nm : List Char} (tail : List Char)
    (h : ∀ x ∈ nm, x ≠ '\x7d') :
    findBrace (nm ++ '\x7d' :: tail) = some (nm, tail) := by
  induction nm with
  | nil => simp [findBrace]
  | cons c nmr ih =>
    have hc : c ≠ '\x7d' := h c (List.mem_cons_self c nmr)
    simp only [List.cons_append, findBrace, if_neg hc, List.append_eq]
    rw [ih fun x hx => h x (List.mem_cons_of_mem c hx)]
    rfl

theorem findBrace_length : ∀ {r nm after : List Char},
    findBrace r = some (nm, after) → nm.length + 1 + after.length = r.length := by
  intro r
  induction r with
  | nil => intro nm after h; simp [findBrace] at h
  | cons c r ih =>
    intro nm after h
    by_cases hc : c = '\x7d'
    · simp [findBrace, hc] at h
      obtain ⟨rfl, rfl⟩ := h
      simp only [List.length_cons, List.length_nil]
      omega
    · simp only [findBrace, if_neg hc] at h
      cases hfb : findBrace r with
      | none => rw [hfb] at h; simp at h
      | some p =>
        obtain ⟨nm1, after1⟩ := p
        rw [hfb] at h
        simp only [Option.map_some', Option.some.injEq, Prod.mk.injEq] at h
        obtain ⟨rfl, rfl⟩ := h
        have := ih hfb
        simp only [List.length_cons]
        omega

theorem ps_dd (r : List Char) :
    param_scan ('$' :: '$' :: r) = some ([], PTok.dollar, r) := by
  simp [param_scan]

theorem ps_db (r : List Char) :
    param_scan ('$' :: '!' :: r) = some ([], PTok.bang, r) := by
  simp [param_scan]

theorem ps_dq (r : List Char) :
    param_scan ('$' :: '?' :: r) = some ([], PTok.quest, r) := by
  simp [param_scan]

theorem ps_dbrace_found {r nm after : List Char}
    (hfb : findBrace r = some (nm, after)) :
    param_scan ('$' :: '\x7b' :: r) = some ([], PTok.brace nm, after) := by
  simp [param_scan, hfb]

theorem ps_dbrace_missing {r : List Char} (hfb : findBrace r = none) :
    param_scan ('$' :: '\x7b' :: r) =
      skipMap '$' (param_scan ('\x7b' :: r)) := by
  simp [param_scan, hfb]

theorem ps_dother {d : Char} (r : List Char) (hd : d ≠ '$') (hb : d ≠ '!')
    (hq : d ≠ '?') (hbr : d ≠ '\x7b') :
    param_scan ('$' :: d :: r) = skipMap '$' (param_scan (d :: r)) := by
  simp [param_scan, hd, hb, hq, hbr]

theorem ps_nd {c : Char} (d : Char) (r : List Char) (hc : c ≠ '$') :
    param_scan (c :: d :: r) = skipMap c (param_scan (d :: r)) := by
  simp [param_scan, hc]

theorem param_scan_length : ∀ {w pre rest : List Char} {tk : PTok},
    param_scan w = some (pre, tk, rest) → rest.length + 2 ≤ w.length := by
  intro w
  induction w with
  | nil => intro pre rest tk h; simp [param_scan] at h
  | cons c cs ih =>
    intro pre rest tk h
    cases cs with
    | nil => simp [param_scan] at h
    | cons d r =>
      by_cases hc : c = '$'
      · subst hc
        by_cases hd : d = '$'
        · subst hd
          rw [ps_dd] at h
          simp only [Option.some.injEq, Prod.mk.injEq] at h
          obtain ⟨rfl, rfl, rfl⟩ := h
          simp
        · by_cases hb : d = '!'
          · subst hb
            rw [ps_db] at h
            simp only [Option.some.injEq, Prod.mk.injEq] at h
            obtain ⟨rfl, rfl, rfl⟩ := h
            simp
          · by_cases hq : d = '?'
            · subst hq
              rw [ps_dq] at h
              simp only [Option.some.injEq, Prod.mk.injEq] at h
              obtain ⟨rfl, rfl, rfl⟩ := h
              simp
            · by_cases hbr : d = '\x7b'
              · subst hbr
                cases hfb : findBrace r with
                | some p =>
                  obtain ⟨nm, after⟩ := p
                  rw [ps_dbrace_found hfb] at h
                  simp only [Option.some.injEq, Prod.mk.injEq] at h
                  obtain ⟨rfl, rfl, rfl⟩ := h
                  have := findBrace_length hfb
                  simp only [List.length_cons]
                  omega
                | none =>
                  rw [ps_dbrace_missing hfb] at h
                  cases hps : param_scan ('\x7b' :: r) with
                  | none => rw [hps] at h; simp [skipMap] at h
                  | some q =>
                    obtain ⟨p1, t1, s1⟩ := q
                    rw [hps] at h
                    simp only [skipMap, Option.some.injEq, Prod.mk.injEq] at h
                    obtain ⟨rfl, rfl, rfl⟩ := h
                    have := ih hps
                    simp only [List.length_cons] at this ⊢
                    omega
              · rw [ps_dother r hd hb hq hbr] at h
                cases hps : param_scan (d :: r) with
                | none => rw [hps] at h; simp [skipMap] at h
                | some q =>
                  obtain ⟨p1, t1, s1⟩ := q
                  rw [hps] at h
                  simp only [skipMap, Option.some.injEq, Prod.mk.injEq] at h
                  obtain ⟨rfl, rfl, rfl⟩ := h
                  have := ih hps
                  simp only [List.length_cons] at this ⊢
                  omega
      · rw [ps_nd d r hc] at h
        cases hps : param_scan (d :: r) with
        | none => rw [hps] at h; simp [skipMap] at h
        | some q =>
          obtain ⟨p1, t1, s1⟩ := q
          rw [hps] at h
          simp only [skipMap, Option.some.injEq, Prod.mk.injEq] at h
          obtain ⟨rfl, rfl, rfl⟩ := h
          have := ih hps
          simp only [List.length_cons] at this ⊢
          omega

theorem expandF_fuel : ∀ (f₁ f₂ : Nat) (st : ShellState) (w : List Char),
    w.length < f₁ → w.length < f₂ → expandF f₁ st w = expandF f₂ st w := by
  intro f₁
  induction f₁ with
  | zero => intro f₂ st w h₁ _; exact absurd h₁ (Nat.not_lt_zero _)
  | succ f₁ ih =>
    intro f₂ st w h₁ h₂
    cases f₂ with
    | zero => exact absurd h₂ (Nat.not_lt_zero _)
    | succ f₂ =>
      cases hps : param_scan w with
      | none => simp only [expandF, hps]
      | some q =>
        obtain ⟨pre, tk, rest⟩ := q
        have hlen := param_scan_length hps
        simp only [expandF, hps]
        rw [ih f₂ st rest (by omega) (by omega)]

theorem expand_cons {w pre rest sub : List Char} {tk : PTok}
    (st : ShellState) (hps : param_scan w = some (pre, tk, rest))
    (hsub : paramSub st tk = some sub) :
    expand st w = (expand st rest).map (fun t => pre ++ sub ++ t) := by
  have hlen := param_scan_length hps
  conv_lhs => simp only [expand, expandF, hps, hsub]
  rw [expandF_fuel w.length (rest.length + 1) st rest (by omega) (by omega)]
  cases hrest : expandF (rest.length + 1) st rest <;> simp [expand, hrest]

theorem noParam_scan : ∀ {w : List Char},
    noParamTokensB w = true → param_scan w = none := by
  intro w
  induction w with
  | nil => intro _; rfl
  | cons c cs ih =>
    intro h
    cases cs with
    | nil => simp [param_scan]
    | cons d r =>
      by_cases hc : c = '$'
      · subst hc
        by_cases hspec : d = '$' ∨ d = '!' ∨ d = '?'
        · rcases hspec with rfl | rfl | rfl <;> simp [noParamTokensB] at h
        · push_neg at hspec
          obtain ⟨hd, hb, hq⟩ := hspec
          by_cases hbr : d = '\x7b'
          · subst hbr
            have h' : (r.all fun x => !(x = '\x7d' : Bool)) = true ∧
                noParamTokensB ('\x7b' :: r) = true := by
              simpa [noParamTokensB] using h
            have hall : ∀ x ∈ r, x ≠ '\x7d' := by
              have := h'.1
              simp only [List.all_eq_true, Bool.not_eq_eq_eq_not, Bool.not_true,
                decide_eq_false_iff_not] at this
              exact this
            rw [ps_dbrace_missing (findBrace_none hall), ih h'.2]
            rfl
          · have h' : noParamTokensB (d :: r) = true := by
              simpa [noParamTokensB, hd, hb, hq, hbr] using h
            rw [ps_dother r hd hb hq hbr, ih h']
            rfl
      · have h' : noParamTokensB (d :: r) = true := by
          simpa [noParamTokensB, hc] using h
        rw [ps_nd d r hc, ih h']
        rfl

/-! ## Decimal formatting lemmas -/

theorem ndc_len : ∀ (f n : Nat), n < f →
    ndcAux f n = (decDigitsAux f n).length + 1 := by
  intro f
  induction f with
  | zero => intro n h; exact absurd h (Nat.not_lt_zero _)
  | succ f ih =>
    intro n h
    by_cases hn : n = 0
    · subst hn; simp [ndcAux, decDigitsAux]
    · have hdiv : n / 10 < n := Nat.div_lt_self (Nat.pos_of_ne_zero hn) (by omega)
      have h10 : n / 10 < f := by omega
      simp only [ndcAux, decDigitsAux, if_pos (Nat.pos_of_ne_zero hn), if_neg hn]
      rw [ih (n / 10) h10]
      simp only [List.length_append, List.length_cons, List.length_nil]
      omega

theorem fmtSnprintf_nonpos {v : Int} (h : v ≤ 0) : fmtSnprintf v = [] := by
  have hv : v.toNat = 0 := Int.toNat_of_nonpos h
  simp [fmtSnprintf, n_digits_counter, hv, ndcAux]

theorem fmtSnprintf_pos {v : Int} (h : 0 < v) :
    fmtSnprintf v = decDigits v.toNat := by
  have h1 : ¬v < 0 := by omega
  have h2 : v ≠ 0 := by omega
  simp only [fmtSnprintf, fullDec, if_neg h1, if_neg h2, n_digits_counter,
    decDigits]
  rw [ndc_len _ _ (Nat.lt_succ_self _)]
  simp only [Nat.add_sub_cancel]
  exact List.take_length _

theorem digChar_digit {d : Nat} (h : d < 10) : isdigitC (digChar d) = true := by
  interval_cases d <;> decide

theorem digChar_val {d : Nat} (h : d < 10) :
    ((digChar d).toNat : Int) - 48 = (d : Int) := by
  interval_cases d <;> decide

theorem decDigitsAux_digits : ∀ (f n : Nat),
    ∀ c ∈ decDigitsAux f n, isdigitC c = true := by
  intro f
  induction f with
  | zero => intro n c hc; simp [decDigitsAux] at hc
  | succ f ih =>
    intro n c hc
    by_cases hn : n = 0
    · subst hn; simp [decDigitsAux] at hc
    · simp only [decDigitsAux, if_neg hn, List.mem_append,
        List.mem_singleton] at hc
      rcases hc with hc | rfl
      · exact ih _ _ hc
      · exact digChar_digit (Nat.mod_lt _ (by omega))

theorem digitsValAcc_append : ∀ (xs ys : List Char) (acc : Int),
    (∀ c ∈ xs, isdigitC c = true) →
    digitsValAcc acc (xs ++ ys) = digitsValAcc (digitsValAcc acc xs) ys := by
  intro xs
  induction xs with
  | nil => intro ys acc _; rfl
  | cons c xs ih =>
    intro ys acc h
    have hc := h c (List.mem_cons_self c xs)
    simp only [List.cons_append, digitsValAcc, if_pos hc]
    exact ih ys _ fun x hx => h x (List.mem_cons_of_mem c hx)

theorem digitsValAcc_dec : ∀ (f n : Nat) (acc : Int), n < f →
    digitsValAcc acc (decDigitsAux f n) =
      acc * 10 ^ (decDigitsAux f n).length + (n : Int) := by
  intro f
  induction f with
  | zero => intro n acc h; exact absurd h (Nat.not_lt_zero _)
  | succ f ih =>
    intro n acc h
    by_cases hn : n = 0
    · subst hn; simp [decDigitsAux, digitsValAcc]
    · have hdiv : n / 10 < n := Nat.div_lt_self (Nat.pos_of_ne_zero hn) (by omega)
      have h10 : n / 10 < f := by omega
      have hlt : n % 10 < 10 := Nat.mod_lt _ (by omega)
      simp only [decDigitsAux, if_neg hn]
      rw [digitsValAcc_append _ _ _ (decDigitsAux_digits f (n / 10))]
      rw [ih (n / 10) acc h10]
      simp only [digitsValAcc, if_pos (digChar_digit hlt), List.length_append,
        List.length_cons, List.length_nil]
      rw [digChar_val hlt]
      have hdm : (10 : Int) * ((n / 10 : Nat) : Int) + ((n % 10 : Nat) : Int) =
          (n : Int) := by exact_mod_cast Nat.div_add_mod n 10
      rw [pow_succ]
      linear_combination hdm

theorem decDigitsAux_ne_nil {f n : Nat} (hn : n ≠ 0) :
    decDigitsAux (f + 1) n ≠ [] := by
  simp only [decDigitsAux, if_neg hn]
  exact fun h => by simpa using congrArg List.length h

theorem isdigit_not_space {c : Char} (h : isdigitC c = true) :
    isspaceC c = false := by
  simp only [isdigitC, Bool.and_eq_true, decide_eq_true_eq] at h
  simp only [isspaceC, Bool.or_eq_false_iff, decide_eq_false_iff_not]
  omega

theorem isdigit_ne {c : Char} (h : isdigitC c = true) : c ≠ '-' ∧ c ≠ '+' := by
  constructor <;> rintro rfl <;> exact absurd h (by decide)

theorem atoi_decDigits {n : Nat} (h : 0 < n) (hb : (n : Int) ≤ INT_MAX) :
    atoi (decDigits n) = some (n : Int) := by
  have hne : decDigits n ≠ [] := decDigitsAux_ne_nil (by omega)
  obtain ⟨c, t, hct⟩ := List.exists_cons_of_ne_nil hne
  have hdig : ∀ x ∈ decDigits n, isdigitC x = true := decDigitsAux_digits _ _
  have hc : isdigitC c = true := hdig c (hct ▸ List.mem_cons_self c t)
  obtain ⟨hm, hp⟩ := isdigit_ne hc
  have hval : digitsValAcc 0 (decDigits n) = (n : Int) := by
    simpa [decDigits] using digitsValAcc_dec (n + 1) n 0 (Nat.lt_succ_self n)
  simp only [atoi, hct, List.dropWhile_cons, isdigit_not_space hc,
    Bool.false_eq_true, if_false, atoiGo, if_neg hm, if_neg hp]
  rw [← hct, hval, if_pos hb]

theorem digitsValAcc_foldl : ∀ (a : List Char) (acc : Int),
    (∀ c ∈ a, isdigitC c = true) →
    digitsValAcc acc a =
      a.foldl (fun x c => 10 * x + ((c.toNat : Int) - 48)) acc := by
  intro a
  induction a with
  | nil => intro acc _; rfl
  | cons c t ih =>
    intro acc h
    have hc := h c (List.mem_cons_self c t)
    simp only [digitsValAcc, if_pos hc, List.foldl_cons]
    exact ih _ fun x hx => h x (List.mem_cons_of_mem c hx)

theorem atoi_all_digits {a : List Char} (hne : a ≠ [])
    (h : ∀ c ∈ a, isdigitC c = true) :
    atoi a = if decValue a ≤ INT_MAX then some (decValue a) else none := by
  obtain ⟨c, t, rfl⟩ := List.exists_cons_of_ne_nil hne
  have hc := h c (List.mem_cons_self c t)
  obtain ⟨hm, hp⟩ := isdigit_ne hc
  have hv : digitsValAcc 0 (c :: t) = decValue (c :: t) :=
    digitsValAcc_foldl _ _ h
  simp only [atoi, List.dropWhile_cons, isdigit_not_space hc,
    Bool.false_eq_true, if_false, atoiGo, if_neg hm, if_neg hp, hv]

/-! ## Parser lemmas -/

theorem parseLoop_trunc_mono :
    ∀ (ws : List (List Char)) (st : PState) {x : List Char},
      x ∈ st.truncEffects → x ∈ (parseLoop st ws).truncEffects
  | [], _, _, hx => hx
  | [w], st, x, hx => by
    simp only [parseLoop]
    split
    · exact hx
    · split <;> exact hx
  | w :: t :: rest, st, x, hx => by
    simp only [parseLoop]
    split
    · exact parseLoop_trunc_mono rest _ (List.mem_append_left _ hx)
    · split
      · exact parseLoop_trunc_mono rest _ hx
      · split
        · exact parseLoop_trunc_mono rest _ hx
        · exact parseLoop_trunc_mono (t :: rest) _ hx

theorem parse_trunc_general :
    ∀ (pre : List (List Char)) (st : PState) (t : List Char)
      (rest : List (List Char)),
      (∀ w ∈ pre, w ≠ ['>'] ∧ w ≠ ['<'] ∧ w ≠ ['>', '>']) →
      t ∈ (parseLoop st (pre ++ ['>'] :: t :: rest)).truncEffects
  | [], st, t, rest, _ => by
    simp only [List.nil_append, parseLoop, if_pos rfl]
    exact parseLoop_trunc_mono rest _ (by simp)
  | w :: pre, st, t, rest, hpre => by
    obtain ⟨h1, h2, h3⟩ := hpre w (List.mem_cons_self w pre)
    cases pre with
    | nil =>
      simp [parseLoop, h1, h2, h3]
      exact parseLoop_trunc_mono rest _ (by simp)
    | cons w2 pre2 =>
      simp only [List.cons_append, parseLoop, if_neg h1, if_neg h2, if_neg h3]
      exact parse_trunc_general (w2 :: pre2) _ t rest
        fun x hx => hpre x (List.mem_cons_of_mem w hx)

/-! ## Tokenizer lemmas -/

theorem skipSp_idem : ∀ (l : List Char), skipSp (skipSp l) = skipSp l := by
  intro l
  induction l with
  | nil => rfl
  | cons c cs ih =>
    cases hsp : isspaceC c with
    | true => simp only [skipSp, if_pos hsp]; exact ih
    | false =>
      have h1 : skipSp (c :: cs) = c :: cs := by
        rw [skipSp, if_neg (by simp [hsp])]
      rw [h1]
      exact h1

theorem skipSp_length : ∀ (l : List Char), (skipSp l).length ≤ l.length := by
  intro l
  induction l with
  | nil => exact Nat.le_refl _
  | cons c cs ih =>
    cases hsp : isspaceC c with
    | true =>
      simp only [skipSp, if_pos hsp, List.length_cons]
      omega
    | false => simp [skipSp, hsp]

theorem skipSp_subset : ∀ {l : List Char} {x : Char}, x ∈ skipSp l → x ∈ l := by
  intro l
  induction l with
  | nil => intro x hx; exact hx
  | cons c cs ih =>
    intro x hx
    cases hsp : isspaceC c with
    | true =>
      rw [skipSp, if_pos hsp] at hx
      exact List.mem_cons_of_mem c (ih hx)
    | false => rwa [skipSp, if_neg (by simp [hsp])] at hx

theorem skipSp_fix_head {c : Char} {cs : List Char}
    (h : skipSp (c :: cs) = c :: cs) : isspaceC c = false := by
  cases hsp : isspaceC c with
  | false => rfl
  | true =>
    rw [skipSp, if_pos hsp] at h
    have hlen := skipSp_length cs
    have := congrArg List.length h
    simp only [List.length_cons] at this
    omega

theorem mem_dropWhile {p : Char → Bool} {x : Char} {l : List Char}
    (hx : x ∈ l.dropWhile p) : x ∈ l :=
  (List.dropWhile_sublist p).subset hx

theorem readWord_no_bs : ∀ (cs : List Char), '\\' ∉ cs →
    readWord cs = some (cs.takeWhile nonsp, cs.dropWhile nonsp) := by
  intro cs
  induction cs with
  | nil => intro _; rfl
  | cons c cs ih =>
    intro hbs
    have hc : c ≠ '\\' := fun h => hbs (h ▸ List.mem_cons_self c cs)
    have hcs : '\\' ∉ cs := fun h => hbs (List.mem_cons_of_mem c h)
    cases hsp : isspaceC c with
    | true =>
      have hnsp : nonsp c = false := by simp [nonsp, hsp]
      cases cs with
      | nil =>
        simp [readWord, hsp, List.takeWhile_cons, List.dropWhile_cons, hnsp]
      | cons d cs' =>
        simp [readWord, hsp, List.takeWhile_cons, List.dropWhile_cons, hnsp]
    | false =>
      have hnsp : nonsp c = true := by simp [nonsp, hsp]
      cases cs with
      | nil =>
        simp [readWord, hsp, hc, List.takeWhile_cons, List.dropWhile_cons,
          hnsp]
      | cons d cs' =>
        simp only [readWord, hsp, Bool.false_eq_true, if_false, if_neg hc,
          ih hcs, Option.map_some', List.takeWhile_cons, List.dropWhile_cons,
          hnsp, if_true]

theorem specRuns_fuel : ∀ (f₁ f₂ : Nat) (cs : List Char),
    cs.length < f₁ → cs.length < f₂ → specRuns f₁ cs = specRuns f₂ cs := by
  intro f₁
  induction f₁ with
  | zero => intro f₂ cs h₁ _; exact absurd h₁ (Nat.not_lt_zero _)
  | succ f₁ ih =>
    intro f₂ cs h₁ h₂
    cases f₂ with
    | zero => exact absurd h₂ (Nat.not_lt_zero _)
    | succ f₂ =>
      cases cs with
      | nil => rfl
      | cons c cs =>
        simp only [List.length_cons] at h₁ h₂
        cases hsp : isspaceC c with
        | true =>
          simp only [specRuns, if_pos hsp]
          exact ih f₂ cs (by omega) (by omega)
        | false =>
          simp only [specRuns, hsp, Bool.false_eq_true, if_false]
          have hd := (List.dropWhile_sublist (l := cs) nonsp).length_le
          rw [ih f₂ (cs.dropWhile nonsp) (by omega) (by omega)]

theorem maxRuns_cons_space {c : Char} {cs : List Char}
    (hsp : isspaceC c = true) : maxRuns (c :: cs) = maxRuns cs := by
  simp only [maxRuns, List.length_cons, specRuns, if_pos hsp]

theorem maxRuns_cons_nonspace {c : Char} {cs : List Char}
    (hsp : isspaceC c = false) :
    maxRuns (c :: cs) =
      (c :: cs.takeWhile nonsp) :: maxRuns (cs.dropWhile nonsp) := by
  have hd := (List.dropWhile_sublist (l := cs) nonsp).length_le
  simp only [maxRuns, List.length_cons, specRuns, hsp, Bool.false_eq_true,
    if_false]
  rw [specRuns_fuel (cs.length + 1) ((cs.dropWhile nonsp).length + 1)
    (cs.dropWhile nonsp) (by omega) (by omega)]

theorem maxRuns_skipSp : ∀ (l : List Char), maxRuns (skipSp l) = maxRuns l := by
  intro l
  induction l with
  | nil => rfl
  | cons c cs ih =>
    cases hsp : isspaceC c with
    | true => rw [skipSp, if_pos hsp, maxRuns_cons_space hsp]; exact ih
    | false => rw [skipSp, if_neg (by simp [hsp])]

theorem wsLoop_runs : ∀ (fuel : Nat) (cs : List Char) (maxW wind : Nat),
    cs.length < fuel → '\\' ∉ cs → skipSp cs = cs → wind ≤ maxW →
    wsLoop fuel maxW wind cs =
      some ((hashCut (maxRuns cs)).take (maxW - wind)) := by
  intro fuel
  induction fuel with
  | zero => intro cs maxW wind hlen _ _ _; exact absurd hlen (Nat.not_lt_zero _)
  | succ fuel ih =>
    intro cs maxW wind hlen hbs hskip hwm
    cases cs with
    | nil => simp [wsLoop, maxRuns, specRuns, hashCut]
    | cons c cs =>
      have hspc : isspaceC c = false := skipSp_fix_head hskip
      by_cases hwind : wind = maxW
      · subst hwind
        simp [wsLoop, Nat.sub_self]
      · by_cases hhash : c = '#'
        · subst hhash
          rw [maxRuns_cons_nonspace hspc]
          simp [wsLoop, hashCut, hwind]
        · have hcs : '\\' ∉ cs := fun h => hbs (List.mem_cons_of_mem c h)
          have hrw := readWord_no_bs (c :: cs) hbs
          have hnsp : nonsp c = true := by simp [nonsp, hspc]
          rw [List.takeWhile_cons, if_pos hnsp, List.dropWhile_cons,
            if_pos hnsp] at hrw
          have hdlen := (List.dropWhile_sublist (l := cs) nonsp).length_le
          have hslen := skipSp_length (cs.dropWhile nonsp)
          have hrec := ih (skipSp (cs.dropWhile nonsp)) maxW (wind + 1)
            (by simp only [List.length_cons] at hlen; omega)
            (fun h => hcs (mem_dropWhile (skipSp_subset h)))
            (skipSp_idem _)
            (by omega)
          simp only [wsLoop, if_neg hwind, if_neg hhash, hrw, hrec]
          rw [maxRuns_skipSp, maxRuns_cons_nonspace hspc]
          have hsub : maxW - wind = (maxW - (wind + 1)) + 1 := by omega
          simp [hashCut, hhash, hsub, List.take_succ_cons]

theorem wordsplit_no_bs (maxW : Nat) {line : List Char} (h : '\\' ∉ line) :
    wordsplit maxW line = some (specSplit maxW line) := by
  have h1 : (skipSp line).length < line.length + 1 :=
    Nat.lt_succ_of_le (skipSp_length line)
  rw [wordsplit, wsLoop_runs (line.length + 1) (skipSp line) maxW 0 h1
    (fun hx => h (skipSp_subset hx)) (skipSp_idem line) (Nat.zero_le _)]
  rw [maxRuns_skipSp]
  simp [specSplit]

theorem param_scan_pre : ∀ (pre w : List Char), '$' ∉ pre →
    param_scan (pre ++ w) =
      (param_scan w).map fun q => (pre ++ q.1, q.2.1, q.2.2) := by
  intro pre
  induction pre with
  | nil =>
    intro w _
    cases hps : param_scan w with
    | none => simp [hps]
    | some q => simp [hps]
  | cons c pre ih =>
    intro w hc
    have hcne : c ≠ '$' := fun h => hc (h ▸ List.mem_cons_self c pre)
    have hpre : '$' ∉ pre := fun h => hc (List.mem_cons_of_mem c h)
    cases hpw : pre ++ w with
    | nil =>
      obtain ⟨rfl, rfl⟩ := List.append_eq_nil.mp hpw
      simp [param_scan]
    | cons d r =>
      rw [List.cons_append, hpw, ps_nd d r hcne, ← hpw, ih w hpre]
      cases param_scan w with
      | none => rfl
      | some q => obtain ⟨a, b, s⟩ := q; simp [skipMap]

theorem expand_brace {pre nm sf : List Char} (st : ShellState)
    (hpre : '$' ∉ pre) (hnm : ∀ x ∈ nm, x ≠ '\x7d') (hlen : nm.length ≤ 63) :
    expand st (pre ++ '$' :: '\x7b' :: (nm ++ '\x7d' :: sf)) =
      (expand st sf).map fun t => pre ++ (st.env nm).getD [] ++ t := by
  have hfb := findBrace_append sf hnm
  have hps : param_scan (pre ++ '$' :: '\x7b' :: (nm ++ '\x7d' :: sf)) =
      some (pre, PTok.brace nm, sf) := by
    rw [param_scan_pre _ _ hpre, ps_dbrace_found hfb]
    simp
  have hsub : paramSub st (PTok.brace nm) = some ((st.env nm).getD []) := by
    simp only [paramSub, if_neg (by omega : ¬64 ≤ nm.length)]
  exact expand_cons st hps hsub

theorem expand_two {w sub : List Char} {tk : PTok} (st : ShellState)
    (hps : param_scan w = some ([], tk, []))
    (hsub : paramSub st tk = some sub) : expand st w = some sub := by
  rw [expand_cons st hps hsub,
    expand_no_param st (rfl : param_scan [] = none)]
  simp

theorem expand_qmark (st : ShellState) :
    expand st ['$', '?'] =
      some (if st.last_status = 0 then ['0'] else fmtSnprintf st.last_status) :=
  expand_two st (ps_dq []) rfl

theorem expand_bang (st : ShellState) :
    expand st ['$', '!'] = some (fmtSnprintf st.last_bg_pid) :=
  expand_two st (ps_db []) rfl

theorem homeVal_eq (st : ShellState) :
    homeVal st = (st.env ['H', 'O', 'M', 'E']).getD [] := by
  have h := @expand_brace [] ['H', 'O', 'M', 'E'] [] st (by simp) (by decide)
    (by decide)
  rw [expand_no_param st (rfl : param_scan [] = none)] at h
  simp only [List.nil_append, Option.map_some', List.append_nil] at h
  rw [homeVal, expandOr,
    show homeWord = '$' :: '\x7b' :: (['H', 'O', 'M', 'E'] ++ '\x7d' :: [])
      from rfl,
    h]
  rfl

theorem atoi_status {st : ShellState} (h : 0 ≤ st.last_status)
    (hb : st.last_status ≤ INT_MAX) :
    atoi (expandOr st ['$', '?']) = some st.last_status := by
  rw [expandOr, expand_qmark]
  by_cases h0 : st.last_status = 0
  · rw [if_pos h0, h0]
    decide
  · rw [if_neg h0, fmtSnprintf_pos (by omega)]
    have hcast : ((st.last_status.toNat : Nat) : Int) = st.last_status :=
      Int.toNat_of_nonneg h
    have := atoi_decDigits (n := st.last_status.toNat) (by omega)
      (by rw [hcast]; exact hb)
    rw [Option.getD_some, this, hcast]

/-! ## Claims -/

/-- Claim C1: the specification demands that a redirection operator with no
following word be reported as a parse error without touching any word slot
beyond the sequence.  The code instead evaluates `words[i + 1]` at the slot
one past the end of the word sequence (a stale or null pointer of the global
array) and hands it to `open_write`: on the two-word sequence
`["echo", ">"]` the parse loop performs exactly that out-of-bounds read,
recorded by the model's `oob` flag. -/
theorem claim_C1_trailing_redirect_oob :
    (parseWords [['e', 'c', 'h', 'o'], ['>']]).oob = true := by decide

/-- Claim C2: on a word with no `$`-parameter token — every `$` either being
last, followed by a character other than `$`/`!`/`?`/`{`, or starting an
unterminated `${` — `expand` is the identity. -/
theorem claim_C2_expand_identity (st : ShellState) (w : List Char)
    (h : noParamTokensB w = true) : expand st w = some w :=
  expand_no_param st (noParam_scan h)

/-- Witness for C2 at a word containing a bare `$`, a `$` before an ordinary
character, and an unterminated `${`. -/
theorem claim_C2_witness :
    noParamTokensB ['a', '$', 'x', '$', '\x7b', 'b', 'c'] = true ∧
    expand stA ['a', '$', 'x', '$', '\x7b', 'b', 'c'] =
      some ['a', '$', 'x', '$', '\x7b', 'b', 'c'] :=
  ⟨by decide, claim_C2_expand_identity stA _ (by decide)⟩

/-- Claim C4: `$!` expands to the empty string while `last_bg_pid` is still
0 (no background process yet) and to the decimal digit string of the pid
once one has been recorded; the choice is a consequence of the
`n_digits_counter`-sized `snprintf` buffer and holds for every state. -/
theorem claim_C4_bang_expansion (st : ShellState) :
    (st.last_bg_pid = 0 → expand st ['$', '!'] = some []) ∧
    (0 < st.last_bg_pid →
      expand st ['$', '!'] = some (decDigits st.last_bg_pid.toNat)) := by
  constructor
  · intro h
    rw [expand_bang, fmtSnprintf_nonpos (le_of_eq h)]
  · intro h
    rw [expand_bang, fmtSnprintf_pos h]

/-- Witness for C4 at a state with no background pid and one with pid 57. -/
theorem claim_C4_witness :
    (stA.last_bg_pid = 0 ∧ expand stA ['$', '!'] = some []) ∧
    (0 < stB.last_bg_pid ∧
      expand stB ['$', '!'] = some (decDigits stB.last_bg_pid.toNat)) :=
  ⟨⟨rfl, (claim_C4_bang_expansion stA).1 rfl⟩,
    ⟨by decide, (claim_C4_bang_expansion stB).2 (by decide)⟩⟩

/-- Counterexample to C5 as stated ("for names of any length"): a 64-byte
name set in the environment is not looked up — `strncpy` of 64 or more
bytes into `char param_arg[64]` leaves no terminator inside (or overflows)
the buffer, modelled as the undefined result `none`. -/
theorem claim_C5_counterexample :
    stC.env nm64 = some ['v'] ∧
    expand stC ('$' :: '\x7b' :: (nm64 ++ ['\x7d'])) = none ∧
    expand stC ('$' :: '\x7b' :: (nm64 ++ ['\x7d'])) ≠
      some ((stC.env nm64).getD []) := by
  refine ⟨by decide, by decide, by decide⟩

/-- Claim C5 (amended to names of at most 63 characters, the capacity of the
`param_arg` buffer): a word containing `${NAME}` — with no `$` before it and
a brace-free name — expands to the environment value of NAME at the time of
the call (empty if unset), followed by the expansion of the rest of the
word.  The environment is an input of every call, so re-expanding the same
word after changing NAME yields the new value. -/
theorem claim_C5_brace_expansion (st : ShellState) (pre nm sf : List Char)
    (hpre : '$' ∉ pre) (hnm : ∀ x ∈ nm, x ≠ '\x7d') (hlen : nm.length ≤ 63) :
    expand st (pre ++ '$' :: '\x7b' :: (nm ++ '\x7d' :: sf)) =
      (expand st sf).map fun t => pre ++ (st.env nm).getD [] ++ t :=
  expand_brace st hpre hnm hlen

/-- Witness for C5 on the word `a${HI}b` in a state with `HI=v1`. -/
theorem claim_C5_witness :
    ('$' ∉ (['a'] : List Char)) ∧
    (∀ x ∈ (['H', 'I'] : List Char), x ≠ '\x7d') ∧
    (['H', 'I'] : List Char).length ≤ 63 ∧
    expand stB (['a'] ++ '$' :: '\x7b' :: (['H', 'I'] ++ '\x7d' :: ['b'])) =
      (expand stB ['b']).map fun t => ['a'] ++ (stB.env ['H', 'I']).getD [] ++ t :=
  ⟨by decide, by decide, by decide,
    claim_C5_brace_expansion stB ['a'] ['H', 'I'] ['b'] (by decide) (by decide)
      (by decide)⟩

/-- Counterexample to C9 as stated: on the line `a\ b` the backslash escape
joins the two non-whitespace runs, so the produced words are not the maximal
non-whitespace runs of the line. -/
theorem claim_C9_counterexample :
    wordsplit 1024 ['a', '\\', ' ', 'b'] = some [['a', ' ', 'b']] ∧
    specSplit 1024 ['a', '\\', ' ', 'b'] = [['a', '\\'], ['b']] ∧
    wordsplit 1024 ['a', '\\', ' ', 'b'] ≠
      some (specSplit 1024 ['a', '\\', ' ', 'b']) := by
  refine ⟨by decide, by decide, by decide⟩

/-- Claim C9 (amended to lines containing no backslash, whose escape
processing the claim's "maximal runs" description omits): the tokenizer
produces exactly the maximal runs of non-whitespace characters in order,
cut at the first word beginning with `#` and truncated at the word cap;
in particular leading/internal whitespace collapses, a `#`-only line gives
zero words, and splitting stops at the cap. -/
theorem claim_C9_tokenizer_runs (maxW : Nat) (line : List Char)
    (h : '\\' ∉ line) : wordsplit maxW line = some (specSplit maxW line) :=
  wordsplit_no_bs maxW h

/-- Witness for C9 on a line with collapsed whitespace and a comment word. -/
theorem claim_C9_witness :
    ('\\' ∉ ['a', 'b', ' ', 'c', 'd', ' ', ' ', '#', 'e', ' ', 'f']) ∧
    wordsplit 1024 ['a', 'b', ' ', 'c', 'd', ' ', ' ', '#', 'e', ' ', 'f'] =
      some (specSplit 1024
        ['a', 'b', ' ', 'c', 'd', ' ', ' ', '#', 'e', ' ', 'f']) :=
  ⟨by decide, claim_C9_tokenizer_runs 1024 _ (by decide)⟩

/-- Claim C10: the claim states the tokenizer never inspects a position past
the terminating null.  On the line `a\` — backslash as final character —
the word-reading loop of `wordsplit` steps over the terminator (appending
the NUL to the word) and dereferences the byte after it, the undefined
access modelled by `none`. -/
theorem claim_C10_trailing_backslash :
    wordsplit 1024 ['a', '\\'] = none := by decide

/-- Claim C3: after waiting on a foreground child, a normal exit records the
exit code and a signal death records 128 plus the signal number as
`last_status`; expanding the literal `$?` in the resulting state (before
any other command changes it) yields exactly the decimal string of that
recorded status, with status 0 yielding `"0"`. -/
theorem claim_C3_status_expansion (st : ShellState) (fpid : Int) (c s : Nat) :
    (applyWait fpid st (WaitRes.exited c)).last_status = (c : Int) ∧
    expand (applyWait fpid st (WaitRes.exited c)) ['$', '?'] =
      some (statusStr c) ∧
    (applyWait fpid st (WaitRes.signaled s)).last_status = 128 + (s : Int) ∧
    expand (applyWait fpid st (WaitRes.signaled s)) ['$', '?'] =
      some (statusStr (128 + s)) := by
  refine ⟨rfl, ?_, rfl, ?_⟩
  · rw [expand_qmark]
    simp only [applyWait]
    by_cases h0 : c = 0
    · subst h0
      simp [statusStr]
    · have hne : ((c : Int)) ≠ 0 := by exact_mod_cast h0
      have hpos : (0 : Int) < (c : Int) := by
        exact_mod_cast Nat.pos_of_ne_zero h0
      rw [if_neg hne, fmtSnprintf_pos hpos]
      simp [statusStr, h0]
  · rw [expand_qmark]
    simp only [applyWait]
    have hne : (128 + (s : Int)) ≠ 0 := by omega
    rw [if_neg hne, fmtSnprintf_pos (by omega)]
    have hcast : ((128 : Int) + (s : Int)).toNat = 128 + s := by omega
    rw [hcast, statusStr, if_neg (by omega : ¬(128 + s = 0))]

/-- Claim C6: whenever the parse loop processes a `>` operator followed by a
word, the target file is opened for writing — created or truncated — at
parse time, before and independently of any later execution; the preceding
words `pre` (none of them redirection operators, e.g. a built-in name or
nothing at all) and the following words `rest` are arbitrary. -/
theorem claim_C6_parse_time_truncation (pre : List (List Char)) (t : List Char)
    (rest : List (List Char))
    (hpre : ∀ w ∈ pre, w ≠ ['>'] ∧ w ≠ ['<'] ∧ w ≠ ['>', '>']) :
    t ∈ (parseWords (pre ++ ['>'] :: t :: rest)).truncEffects :=
  parse_trunc_general pre {} t rest hpre

/-- Witness for C6 on the built-in command line `exit > f`. -/
theorem claim_C6_witness :
    (∀ w ∈ [exitW], w ≠ ['>'] ∧ w ≠ ['<'] ∧ w ≠ ['>', '>']) ∧
    ['f'] ∈ (parseWords ([exitW] ++ ['>'] :: ['f'] :: [])).truncEffects :=
  ⟨by decide, claim_C6_parse_time_truncation [exitW] ['f'] [] (by decide)⟩

/-- Counterexample to C7 as stated: `exit 1a` has an argument containing a
non-digit, yet the code checks only the first character with `isdigit` and
terminates with `atoi("1a") = 1` instead of reporting an error. -/
theorem claim_C7_counterexample :
    exitBuiltin stB [exitW, ['1', 'a']] = some (ExitAction.terminate 1) ∧
    exitBuiltin stB [exitW, ['1', 'a']] ≠ some ExitAction.errContinue := by
  refine ⟨by decide, by decide⟩

/-- Claim C7 (amended: the digit check covers only the argument's first
character, and `atoi` is only defined inside the 32-bit `int` range):
`exit` with no argument terminates with the current last status (always in
range in reality); with one all-digit argument whose decimal value is
representable in `int` it terminates with that value, while a larger
all-digit argument overflows `atoi`, which C leaves undefined; with one
argument whose first character is not a digit it reports an
invalid-argument error and the loop continues; with two or more arguments
it reports a too-many-arguments error and the loop continues. -/
theorem claim_C7_exit_builtin (st : ShellState) :
    (0 ≤ st.last_status → st.last_status ≤ INT_MAX →
      exitBuiltin st [exitW] = some (ExitAction.terminate st.last_status)) ∧
    (∀ a, a ≠ [] → (∀ ch ∈ a, isdigitC ch = true) → decValue a ≤ INT_MAX →
      exitBuiltin st [exitW, a] =
        some (ExitAction.terminate (decValue a))) ∧
    (∀ a, a ≠ [] → (∀ ch ∈ a, isdigitC ch = true) → ¬decValue a ≤ INT_MAX →
      exitBuiltin st [exitW, a] = none) ∧
    (∀ a, isdigitC (a.headD (Char.ofNat 0)) = false →
      exitBuiltin st [exitW, a] = some ExitAction.errContinue) ∧
    (∀ a b rest, exitBuiltin st (exitW :: a :: b :: rest) =
      some ExitAction.errContinue) := by
  refine ⟨?_, ?_, ?_, ?_, ?_⟩
  · intro h hb
    have ha := @atoi_status st h hb
    simp [exitBuiltin, ha]
  · intro a hne hdig hb
    obtain ⟨ch, t2, rfl⟩ := List.exists_cons_of_ne_nil hne
    have hch := hdig ch (List.mem_cons_self ch t2)
    have hv := atoi_all_digits (a := ch :: t2) (by simp) hdig
    simp [exitBuiltin, hch, hv, hb]
  · intro a hne hdig hb
    obtain ⟨ch, t2, rfl⟩ := List.exists_cons_of_ne_nil hne
    have hch := hdig ch (List.mem_cons_self ch t2)
    have hv := atoi_all_digits (a := ch :: t2) (by simp) hdig
    simp [exitBuiltin, hch, hv, hb]
  · intro a h
    rw [List.headD_eq_head?_getD] at h
    simp [exitBuiltin, h]
  · intro a b rest
    simp [exitBuiltin, Nat.le_add_left]

/-- Witness for C7: all five branches at concrete arguments, including the
overflowing `exit 9999999999`. -/
theorem claim_C7_witness :
    (0 ≤ stB.last_status ∧ stB.last_status ≤ INT_MAX ∧
      exitBuiltin stB [exitW] =
        some (ExitAction.terminate stB.last_status)) ∧
    ((['4', '2'] : List Char) ≠ [] ∧
      (∀ ch ∈ (['4', '2'] : List Char), isdigitC ch = true) ∧
      decValue ['4', '2'] ≤ INT_MAX ∧
      exitBuiltin stB [exitW, ['4', '2']] =
        some (ExitAction.terminate (decValue ['4', '2']))) ∧
    (¬decValue ['9', '9', '9', '9', '9', '9', '9', '9', '9', '9'] ≤ INT_MAX ∧
      exitBuiltin stB
        [exitW, ['9', '9', '9', '9', '9', '9', '9', '9', '9', '9']] = none) ∧
    (isdigitC ((['a', 'b'] : List Char).headD (Char.ofNat 0)) = false ∧
      exitBuiltin stB [exitW, ['a', 'b']] = some ExitAction.errContinue) ∧
    exitBuiltin stB (exitW :: ['1'] :: ['2'] :: []) =
      some ExitAction.errContinue :=
  ⟨⟨by decide, by decide, (claim_C7_exit_builtin stB).1 (by decide) (by decide)⟩,
    ⟨by decide, by decide, by decide,
      (claim_C7_exit_builtin stB).2.1 ['4', '2'] (by decide) (by decide)
        (by decide)⟩,
    ⟨by decide,
      (claim_C7_exit_builtin stB).2.2.1
        ['9', '9', '9', '9', '9', '9', '9', '9', '9', '9'] (by decide)
        (by decide) (by decide)⟩,
    ⟨by decide, (claim_C7_exit_builtin stB).2.2.2.1 ['a', 'b'] (by decide)⟩,
    (claim_C7_exit_builtin stB).2.2.2.2 ['1'] ['2'] []⟩

/-- Claim C8: `cd` with no argument changes to the value of the `HOME`
parameter (when that directory can be entered); with one argument naming a
path that fails the `access` check or the `chdir` call it reports an error
and leaves the working directory unchanged; with two or more arguments it
reports an argument-count error and leaves the directory unchanged. -/
theorem claim_C8_cd_builtin (st : ShellState) (fs : FSModel)
    (cwd : List Char) :
    (fs.chdirOk (homeVal st) = true →
      cdBuiltin st fs cwd [cdW] =
        ((st.env ['H', 'O', 'M', 'E']).getD [], false)) ∧
    (∀ p, fs.accessOk p = false ∨ fs.chdirOk p = false →
      cdBuiltin st fs cwd [cdW, p] = (cwd, true)) ∧
    (∀ p q rest, cdBuiltin st fs cwd (cdW :: p :: q :: rest) = (cwd, true)) := by
  refine ⟨?_, ?_, ?_⟩
  · intro h
    have h' : fs.chdirOk ((st.env ['H', 'O', 'M', 'E']).getD []) = true := by
      rw [← homeVal_eq st]
      exact h
    simp [cdBuiltin, homeVal_eq st, h']
  · intro p hp
    rcases hp with hp | hp
    · simp [cdBuiltin, hp]
    · cases hacc : fs.accessOk p with
      | true => simp [cdBuiltin, hacc, hp]
      | false => simp [cdBuiltin, hacc]
  · intro p q rest
    simp [cdBuiltin, Nat.le_add_left]

/-- Witness for C8: home change with `HOME=/h`, error on a path failing
`access`, and the argument-count error, in the filesystem `fsW`. -/
theorem claim_C8_witness :
    (fsW.chdirOk (homeVal stH) = true ∧
      cdBuiltin stH fsW ['/', 'w'] [cdW] =
        ((stH.env ['H', 'O', 'M', 'E']).getD [], false)) ∧
    ((fsW.accessOk ['z'] = false ∨ fsW.chdirOk ['z'] = false) ∧
      cdBuiltin stH fsW ['/', 'w'] [cdW, ['z']] = (['/', 'w'], true)) ∧
    cdBuiltin stH fsW ['/', 'w'] (cdW :: ['a'] :: ['b'] :: []) =
      (['/', 'w'], true) :=
  ⟨⟨by decide, (claim_C8_cd_builtin stH fsW ['/', 'w']).1 (by decide)⟩,
    ⟨Or.inl (by decide),
      (claim_C8_cd_builtin stH fsW ['/', 'w']).2.1 ['z'] (Or.inl (by decide))⟩,
    (claim_C8_cd_builtin stH fsW ['/', 'w']).2.2 ['a'] ['b'] []⟩
